import Mathlib

/-!
Verification of the MPKG archive unpacker (`src/mpkg.rs`).

The development shallowly embeds the three core routines of the source:

* `read_int32`   — 4-byte little-endian unsigned integer read (`read_int32`),
* `copy_stream_data` — the length-bounded streaming copy loop (`copy_stream_data`),
* `unpack_mpkg`  — header/TOC parsing and per-member extraction (`unpack_mpkg`).

Bytes are natural numbers below 256.  An input stream is modelled as the list
of the successive non-empty byte chunks that its `read` calls return; this
captures every well-behaved `std::io::Read` implementation (each `read` on a
stream that still has data returns at least one byte, and `read` returns `0`
exactly when the stream is exhausted).  A read of at most `n` bytes takes at
most `n` bytes from the front chunk.  The filesystem side effects of
`unpack_mpkg` are recorded as an ordered event trace (`create_dir_all`,
`File::create` + the bytes written to the created file), and paths are the
byte strings a Unix `PathBuf` would hold, with `Path::join`, `Path::parent`,
`Path::file_stem` modelled byte-for-byte (`/` = byte 47).

`String::from_utf8_lossy` is modelled exactly: UTF-8 decoding that replaces
each maximal invalid subpart with U+FFFD (65533), as Rust does; `utf8Encode`
re-encodes the scalar values to the bytes an `OsStr` made from the `String`
would contain.

The `while remaining > 0` loop of `copy_stream_data` is written with an
explicit structural fuel argument; the wrapper passes `length` as the fuel,
which is always sufficient because every iteration either returns (on a
zero-byte read) or consumes at least one byte of `remaining`.  The fuel-0
branch coincides with the `remaining = 0` exit and is unreachable whenever
`remaining ≤ fuel`.
-/

/-- `BUFFER_SIZE` from the source: 1024 * 1024 bytes. -/
def BUFFER_SIZE : Nat := 1024 * 1024

/-- The error values the unpacker can produce.  The source uses `io::Error`
for both; the payload case carries the numbers printed in its message
(expected length and remaining byte count). -/
inductive MpkgError where
  | truncatedInput : MpkgError
  | truncatedPayload (expected : Nat) (remaining : Nat) : MpkgError
deriving DecidableEq

/-- One `read` call on a chunked stream: at most `toRead` bytes are taken
from the front chunk; the remainder of that chunk stays at the front.
Returns the bytes read and the stream afterwards.  An exhausted stream
returns `[]` (the `0` return of `std::io::Read::read`). -/
def streamRead (input : List (List Nat)) (toRead : Nat) : List Nat × List (List Nat) :=
  match input with
  | [] => ([], [])
  | c :: rest =>
    let chunk := c.take toRead
    let rem := c.drop toRead
    (chunk, if rem = [] then rest else rem :: rest)

/-- Result of `copy_stream_data`: optional error, the input stream as left
behind by the reads, and the destination stream contents (the bytes written
so far have been appended). -/
structure CopyResult where
  err : Option MpkgError
  input : List (List Nat)
  output : List Nat
deriving DecidableEq

/-- The `while remaining > 0` loop of `copy_stream_data`, with structural
fuel.  Each iteration reads up to `min BUFFER_SIZE remaining` bytes, fails
with the truncated-payload error if the read returns zero bytes, otherwise
appends the bytes to the output and subtracts the count from `remaining`. -/
def copyLoop (fuel : Nat) (input : List (List Nat)) (output : List Nat)
    (length remaining : Nat) : CopyResult :=
  match fuel with
  | 0 => ⟨none, input, output⟩
  | fuel + 1 =>
    if remaining = 0 then ⟨none, input, output⟩
    else
      let toRead := min BUFFER_SIZE remaining
      let r := streamRead input toRead
      if r.1.length = 0 then
        ⟨some (MpkgError.truncatedPayload length remaining), r.2, output⟩
      else
        copyLoop fuel r.2 (output ++ r.1) length (remaining - r.1.length)

/-- `copy_stream_data(input, output, length)` from the source. -/
def copy_stream_data (input : List (List Nat)) (output : List Nat) (length : Nat) :
    CopyResult :=
  copyLoop length input output length length

/-- Little-endian value of 4 bytes, as `u32::from_le_bytes`. -/
def fromLe4 (b0 b1 b2 b3 : Nat) : Nat :=
  b0 + 256 * b1 + 65536 * b2 + 16777216 * b3

/-- `read_int32` from the source: `read_exact` of 4 bytes, then
`u32::from_le_bytes`.  Fails (with `UnexpectedEof`) when fewer than 4 bytes
remain. -/
def read_int32 (input : List Nat) : Except MpkgError (Nat × List Nat) :=
  match input with
  | b0 :: b1 :: b2 :: b3 :: rest => Except.ok (fromLe4 b0 b1 b2 b3, rest)
  | _ => Except.error MpkgError.truncatedInput

/-- `read_exact` into a buffer of `n` bytes on a byte list. -/
def readExact (input : List Nat) (n : Nat) : Except MpkgError (List Nat × List Nat) :=
  if n ≤ input.length then Except.ok (input.take n, input.drop n)
  else Except.error MpkgError.truncatedInput

/-- The 4-byte little-endian encoding of `v % 2^32` (what
`u32::to_le_bytes` writes). -/
def le4 (v : Nat) : List Nat :=
  [v % 256, v / 256 % 256, v / 65536 % 256, v / 16777216 % 256]

theorem le4_length (v : Nat) : (le4 v).length = 4 := rfl

/-- Reading back the 4 little-endian bytes of `v < 2^32` yields `v`. -/
theorem read_int32_le4 (v : Nat) (rest : List Nat) (hv : v < 4294967296) :
    read_int32 (le4 v ++ rest) = Except.ok (v, rest) := by
  simp only [le4, List.cons_append, List.nil_append, read_int32, fromLe4]
  congr 1
  congr 1
  omega

theorem read_int32_short (input : List Nat) (h : input.length < 4) :
    read_int32 input = Except.error MpkgError.truncatedInput := by
  match input with
  | [] => rfl
  | [_] => rfl
  | [_, _] => rfl
  | [_, _, _] => rfl
  | _ :: _ :: _ :: _ :: _ => simp at h; omega

theorem readExact_left (a b : List Nat) :
    readExact (a ++ b) a.length = Except.ok (a, b) := by
  simp [readExact, List.take_left, List.drop_left]

theorem readExact_short (input : List Nat) (n : Nat) (h : input.length < n) :
    readExact input n = Except.error MpkgError.truncatedInput := by
  simp [readExact]
  omega

/-- A stream is well behaved when every chunk its reads return is non-empty:
`read` never returns `0` while data remains. -/
def wfStream (input : List (List Nat)) : Prop := ∀ c ∈ input, c ≠ []

instance (input : List (List Nat)) : Decidable (wfStream input) := by
  unfold wfStream; infer_instance

theorem streamRead_append (input : List (List Nat)) (t : Nat) :
    (streamRead input t).1 ++ ((streamRead input t).2).flatten = input.flatten := by
  match input with
  | [] => rfl
  | c :: rest =>
    simp only [streamRead]
    by_cases h : c.drop t = []
    · have hc : c.take t = c := by
        conv_rhs => rw [← List.take_append_drop t c]
        rw [h, List.append_nil]
      simp [h, hc]
    · simp [h, List.flatten_cons, ← List.append_assoc, List.take_append_drop]

theorem streamRead_len_le (input : List (List Nat)) (t : Nat) :
    (streamRead input t).1.length ≤ t := by
  match input with
  | [] => exact Nat.zero_le t
  | c :: rest => simp [streamRead]

theorem streamRead_fst_take (input : List (List Nat)) (t : Nat) :
    (streamRead input t).1 = input.flatten.take (streamRead input t).1.length := by
  have h := streamRead_append input t
  rw [← h, List.take_left]

theorem streamRead_snd_flatten (input : List (List Nat)) (t : Nat) :
    ((streamRead input t).2).flatten = input.flatten.drop (streamRead input t).1.length := by
  have h := streamRead_append input t
  rw [← h, List.drop_left]

theorem streamRead_pos (input : List (List Nat)) (t : Nat)
    (hne : input ≠ []) (hwf : wfStream input) (ht : 1 ≤ t) :
    (streamRead input t).1 ≠ [] := by
  match input with
  | c :: rest =>
    have hc : c ≠ [] := hwf c (List.mem_cons_self c rest)
    simp only [streamRead]
    intro hcon
    rw [List.take_eq_nil_iff] at hcon
    rcases hcon with h | h
    · omega
    · exact hc h

theorem streamRead_wf (input : List (List Nat)) (t : Nat) (hwf : wfStream input) :
    wfStream (streamRead input t).2 := by
  match input with
  | [] => intro c hc; simp [streamRead] at hc
  | c :: rest =>
    simp only [streamRead]
    by_cases h : c.drop t = []
    · simp only [h, if_pos rfl]
      intro d hd; exact hwf d (List.mem_cons_of_mem c hd)
    · simp only [h, if_neg h]
      intro d hd
      rcases List.mem_cons.mp hd with rfl | hd
      · exact h
      · exact hwf d (List.mem_cons_of_mem c hd)

/-- `copy_stream_data` with enough input: no error, the first `remaining`
bytes of the input are appended to the output, and exactly `remaining` bytes
are consumed from the input. -/
theorem copyLoop_enough (fuel : Nat) :
    ∀ (input : List (List Nat)) (output : List Nat) (length remaining : Nat),
    remaining ≤ fuel → wfStream input → remaining ≤ input.flatten.length →
    (copyLoop fuel input output length remaining).err = none ∧
    (copyLoop fuel input output length remaining).output
      = output ++ input.flatten.take remaining ∧
    ((copyLoop fuel input output length remaining).input).flatten
      = input.flatten.drop remaining ∧
    wfStream (copyLoop fuel input output length remaining).input := by
  induction fuel with
  | zero =>
    intro input output length remaining hf hwf hlen
    have h0 : remaining = 0 := Nat.le_zero.mp hf
    subst h0
    simp [copyLoop, hwf]
  | succ fuel ih =>
    intro input output length remaining hf hwf hlen
    by_cases h0 : remaining = 0
    · subst h0; simp [copyLoop, hwf]
    · have htr : 1 ≤ min BUFFER_SIZE remaining := by
        have : 1 ≤ BUFFER_SIZE := by decide
        omega
      have hne : input ≠ [] := by
        intro hcon; subst hcon; simp at hlen; omega
      have hchunk := streamRead_pos input (min BUFFER_SIZE remaining) hne hwf htr
      have hclen : (streamRead input (min BUFFER_SIZE remaining)).1.length ≠ 0 := by
        simpa [List.length_eq_zero] using hchunk
      simp only [copyLoop, if_neg h0, if_neg hclen]
      set t := min BUFFER_SIZE remaining with ht
      set k := (streamRead input t).1.length with hk
      have hkle : k ≤ remaining := by
        have h1 := streamRead_len_le input t
        omega
      have hflat' : ((streamRead input t).2).flatten = input.flatten.drop k :=
        streamRead_snd_flatten input t
      have hwf' : wfStream (streamRead input t).2 := streamRead_wf input t hwf
      have hlen' : remaining - k ≤ ((streamRead input t).2).flatten.length := by
        rw [hflat', List.length_drop]
        omega
      have hres := ih (streamRead input t).2 (output ++ (streamRead input t).1)
        length (remaining - k) (by omega) hwf' hlen'
      refine ⟨hres.1, ?_, ?_, hres.2.2.2⟩
      · rw [hres.2.1, hflat', List.append_assoc]
        congr 1
        rw [streamRead_fst_take input t, ← hk]
        rw [← List.take_add input.flatten k (remaining - k)]
        congr 1
        omega
      · rw [hres.2.2.1, hflat', List.drop_drop]
        congr 1
        omega

/-- `copy_stream_data` with insufficient input: the loop drains the whole
stream, then a zero-byte read triggers the truncated-payload error carrying
the declared total length and the count still missing. -/
theorem copyLoop_deficient (fuel : Nat) :
    ∀ (input : List (List Nat)) (output : List Nat) (length remaining : Nat),
    remaining ≤ fuel → wfStream input → input.flatten.length < remaining →
    copyLoop fuel input output length remaining
      = ⟨some (MpkgError.truncatedPayload length (remaining - input.flatten.length)),
         [], output ++ input.flatten⟩ := by
  induction fuel with
  | zero =>
    intro input output length remaining hf hwf hlen
    omega
  | succ fuel ih =>
    intro input output length remaining hf hwf hlen
    have h0 : remaining ≠ 0 := by omega
    by_cases hni : input = []
    · subst hni
      simp [copyLoop, if_neg h0, streamRead]
    · have htr : 1 ≤ min BUFFER_SIZE remaining := by
        have : 1 ≤ BUFFER_SIZE := by decide
        omega
      have hchunk := streamRead_pos input (min BUFFER_SIZE remaining) hni hwf htr
      have hclen : (streamRead input (min BUFFER_SIZE remaining)).1.length ≠ 0 := by
        simpa [List.length_eq_zero] using hchunk
      simp only [copyLoop, if_neg h0, if_neg hclen]
      set t := min BUFFER_SIZE remaining with ht
      set k := (streamRead input t).1.length with hk
      have hkle : k ≤ input.flatten.length := by
        conv_rhs => rw [← streamRead_append input t]
        simp [← hk]
      have hflat' : ((streamRead input t).2).flatten = input.flatten.drop k :=
        streamRead_snd_flatten input t
      have hwf' : wfStream (streamRead input t).2 := streamRead_wf input t hwf
      have hlen' : ((streamRead input t).2).flatten.length < remaining - k := by
        rw [hflat', List.length_drop]
        have hkpos : 1 ≤ k := by omega
        omega
      rw [ih (streamRead input t).2 (output ++ (streamRead input t).1)
        length (remaining - k) (by omega) hwf' hlen']
      have hrem : remaining - k - ((streamRead input t).2).flatten.length
          = remaining - input.flatten.length := by
        rw [hflat', List.length_drop]
        omega
      rw [hrem, List.append_assoc]
      congr 2
      rw [streamRead_fst_take input t, ← hk, hflat', List.take_append_drop]

/-- A UTF-8 continuation byte (`0x80..=0xBF`). -/
def isCont (b : Nat) : Bool := 128 ≤ b && b ≤ 191

/-- Valid range of the first continuation byte after lead byte `b`, per the
UTF-8 validation Rust's `str` machinery performs (excluding overlong forms,
surrogates and values above U+10FFFF). -/
def validCont1 (b c : Nat) : Bool :=
  if b = 224 then 160 ≤ c && c ≤ 191
  else if b = 237 then 128 ≤ c && c ≤ 159
  else if b = 240 then 144 ≤ c && c ≤ 191
  else if b = 244 then 128 ≤ c && c ≤ 143
  else 128 ≤ c && c ≤ 191

/-- Recursive core of the lossy UTF-8 decoder, structurally recursive on a
fuel argument.  Every recursive call consumes at least one list element and
exactly one unit of fuel, so fuel equal to the list length (what the wrapper
passes) never runs out; the fuel-0 branch is unreachable from the wrapper. -/
def lossyF : Nat → List Nat → List Nat
  | 0, _ => []
  | f + 1, l =>
    match l with
    | [] => []
    | b :: rest =>
      if b ≤ 127 then b :: lossyF f rest
      else if 194 ≤ b && b ≤ 223 then
        match rest with
        | c1 :: rest2 =>
          if isCont c1 then (64 * (b - 192) + (c1 - 128)) :: lossyF f rest2
          else 65533 :: lossyF f rest
        | [] => [65533]
      else if 224 ≤ b && b ≤ 239 then
        match rest with
        | c1 :: rest2 =>
          if validCont1 b c1 then
            match rest2 with
            | c2 :: rest3 =>
              if isCont c2 then
                (4096 * (b - 224) + 64 * (c1 - 128) + (c2 - 128)) :: lossyF f rest3
              else 65533 :: lossyF f rest2
            | [] => [65533]
          else 65533 :: lossyF f rest
        | [] => [65533]
      else if 240 ≤ b && b ≤ 244 then
        match rest with
        | c1 :: rest2 =>
          if validCont1 b c1 then
            match rest2 with
            | c2 :: rest3 =>
              if isCont c2 then
                match rest3 with
                | c3 :: rest4 =>
                  if isCont c3 then
                    (262144 * (b - 240) + 4096 * (c1 - 128) + 64 * (c2 - 128) + (c3 - 128))
                      :: lossyF f rest4
                  else 65533 :: lossyF f rest3
                | [] => [65533]
              else 65533 :: lossyF f rest2
            | [] => [65533]
          else 65533 :: lossyF f rest
        | [] => [65533]
      else 65533 :: lossyF f rest

/-- `String::from_utf8_lossy` as a function from bytes to the scalar values
of the resulting string: valid UTF-8 sequences decode normally and each
maximal invalid subpart becomes one U+FFFD (65533). -/
def utf8LossyDecode (l : List Nat) : List Nat := lossyF l.length l

/-- UTF-8 encoding of one scalar value (what Rust writes when a `String`
crosses into an `OsStr`/path). -/
def utf8EncodeChar (c : Nat) : List Nat :=
  if c ≤ 127 then [c]
  else if c ≤ 2047 then [192 + c / 64, 128 + c % 64]
  else if c ≤ 65535 then [224 + c / 4096, 128 + c / 64 % 64, 128 + c % 64]
  else [240 + c / 262144, 128 + c / 4096 % 64, 128 + c / 64 % 64, 128 + c % 64]

/-- UTF-8 encoding of a string given as its scalar values. -/
def utf8Encode (s : List Nat) : List Nat := (s.map utf8EncodeChar).flatten

theorem lossyF_ascii (f : Nat) :
    ∀ l : List Nat, l.length ≤ f → (∀ b ∈ l, b ≤ 127) → lossyF f l = l := by
  induction f with
  | zero =>
    intro l hf _
    have : l = [] := List.eq_nil_of_length_eq_zero (Nat.le_zero.mp hf)
    subst this; rfl
  | succ f ih =>
    intro l hf h
    match l with
    | [] => rfl
    | b :: rest =>
      have hb : b ≤ 127 := h b (List.mem_cons_self b rest)
      have hrest : ∀ x ∈ rest, x ≤ 127 := fun x hx => h x (List.mem_cons_of_mem b hx)
      have hlen : rest.length ≤ f := by simp at hf; omega
      simp only [lossyF, if_pos hb]
      rw [ih rest hlen hrest]

/-- An ASCII byte decodes to itself, so ASCII names re-encode to their raw
bytes. -/
theorem utf8_roundtrip_ascii (l : List Nat) (h : ∀ b ∈ l, b ≤ 127) :
    utf8Encode (utf8LossyDecode l) = l := by
  rw [utf8LossyDecode, lossyF_ascii l.length l (Nat.le_refl _) h]
  induction l with
  | nil => rfl
  | cons b rest ih =>
    have hb : b ≤ 127 := h b (List.mem_cons_self b rest)
    have hrest : ∀ x ∈ rest, x ≤ 127 := fun x hx => h x (List.mem_cons_of_mem b hx)
    rw [utf8Encode, List.map_cons, List.flatten_cons, utf8EncodeChar, if_pos hb]
    rw [← utf8Encode, ih hrest]
    rfl

/-- `Path::join` on Unix path byte strings: an absolute right-hand side
replaces the base; otherwise a `/` is inserted unless the base is empty or
already ends with one. -/
def pathJoin (base child : List Nat) : List Nat :=
  if child.head? = some 47 then child
  else if base = [] then child
  else if base.getLast? = some 47 then base ++ child
  else base ++ 47 :: child

/-- `Path::parent` on Unix path byte strings: strip trailing separators,
then the last component and its separator run; `none` for the empty path and
for the root. -/
def pathParent (p : List Nat) : Option (List Nat) :=
  let q := p.reverse.dropWhile (· = 47)
  if q = [] then none
  else
    let r := q.dropWhile (· ≠ 47)
    let r2 := r.dropWhile (· = 47)
    if r2 = [] then
      if r = [] then some [] else some [47]
    else some r2.reverse

/-- `Path::file_name().unwrap_or_default()`: the portion after the last
separator, with trailing separators ignored; `.` and `..` give the default
empty value. -/
def fileNameOf (p : List Nat) : List Nat :=
  let q := (p.reverse.dropWhile (· = 47)).reverse
  let nm := q.foldl (fun acc b => if b = 47 then [] else acc ++ [b]) []
  if nm = [46] || nm = [46, 46] then [] else nm

/-- `Path::file_stem` on a file name: the part before the last `.`, except
that a lone leading `.` belongs to the stem. -/
def fileStem (n : List Nat) : List Nat :=
  match n.reverse.findIdx? (· = 46) with
  | none => n
  | some k =>
    let pos := n.length - 1 - k
    if pos = 0 then n else n.take pos

/-- Filesystem side effects of the unpacker, in program order.
`mkdirAll p` is `fs::create_dir_all(p)` (creates `p` and all missing
ancestors); `createFile p c` is `File::create(p)` followed by the writes the
program performed on it, so `c` is the final contents of the file. -/
inductive FsEvent where
  | mkdirAll (path : List Nat) : FsEvent
  | createFile (path : List Nat) (contents : List Nat) : FsEvent
deriving DecidableEq

/-- Events of one member extraction with name `name` (as the scalar values
of the lossily decoded string stored in `file_list`) and final file contents
`contents`: create the parent directory chain if the path has a parent, then
create the file. -/
def memberEvents (folder : List Nat) (name : List Nat) (contents : List Nat) :
    List FsEvent :=
  let path := pathJoin folder (utf8Encode name)
  (match pathParent path with
   | some par => [FsEvent.mkdirAll par]
   | none => []) ++ [FsEvent.createFile path contents]

/-- The chunk stream a file-backed reader positioned on `bytes` denotes:
no chunks when exhausted, otherwise one chunk holding all remaining bytes
(every read then returns `min toRead available` bytes).  By
`copyLoop_enough`/`copyLoop_deficient` the copy results depend only on the
flattened bytes, so any other well-behaved chunking gives the same result. -/
def singleChunk (bytes : List Nat) : List (List Nat) :=
  if bytes = [] then [] else [bytes]

theorem singleChunk_wf (bytes : List Nat) : wfStream (singleChunk bytes) := by
  intro c hc
  unfold singleChunk at hc
  by_cases h : bytes = []
  · simp [h] at hc
  · simp [h] at hc; subst hc; exact h

theorem singleChunk_flatten (bytes : List Nat) : (singleChunk bytes).flatten = bytes := by
  unfold singleChunk
  by_cases h : bytes = [] <;> simp [h]

/-- The extraction loop over `file_list`: for each `(file_name, file_size)`
pair, join the name onto the output folder, create missing parent
directories, create/truncate the destination file, and stream `file_size`
bytes into it; a copy failure ends the loop with that error, leaving the
partially written file in place. -/
def extractAll (folder : List Nat) (files : List (List Nat × Nat))
    (input : List (List Nat)) : Option MpkgError × List FsEvent :=
  match files with
  | [] => (none, [])
  | (name, size) :: tl =>
    let r := copy_stream_data input [] size
    match r.err with
    | some e => (some e, memberEvents folder name r.output)
    | none =>
      let rest := extractAll folder tl r.input
      (rest.1, memberEvents folder name r.output ++ rest.2)

/-- The `for _ in 0..file_count` TOC loop: read `name_length`, read the name
bytes and decode them lossily, skip the 4 reserved bytes (a `seek` that
succeeds even past end of input), read `file_size`.  Any short read fails
the whole pass. -/
def buildFileList : Nat → List Nat →
    Except MpkgError (List (List Nat × Nat) × List Nat)
  | 0, input => Except.ok ([], input)
  | n + 1, input =>
    match read_int32 input with
    | Except.error e => Except.error e
    | Except.ok (name_length, input) =>
      match readExact input name_length with
      | Except.error e => Except.error e
      | Except.ok (name_bytes, input) =>
        let file_name := utf8LossyDecode name_bytes
        let input := input.drop 4
        match read_int32 input with
        | Except.error e => Except.error e
        | Except.ok (file_size, input) =>
          match buildFileList n input with
          | Except.error e => Except.error e
          | Except.ok (tl, input) => Except.ok ((file_name, file_size) :: tl, input)

/-- Per-archive result of `unpack_mpkg`: the outcome, the ordered trace of
filesystem effects, and the decoded `file_list` (empty when the run failed
before the list was fully built, mirroring that the source returns `Err`
and the partial vector dies with the call). -/
structure UnpackResult where
  err : Option MpkgError
  events : List FsEvent
  index : List (List Nat × Nat)
deriving DecidableEq

/-- `unpack_mpkg(input_file, output_dir)` from the source, with the archive
file contents supplied as `file`.  Derives the output folder from the
archive path's file stem, creates it, reads the header, the member count and
the TOC, then extracts every member in TOC order. -/
def unpack_mpkg (input_file output_dir : List Nat) (file : List Nat) : UnpackResult :=
  let unpacked_folder := pathJoin output_dir (fileStem (fileNameOf input_file))
  let ev0 := [FsEvent.mkdirAll unpacked_folder]
  match read_int32 file with
  | Except.error e => ⟨some e, ev0, []⟩
  | Except.ok (header_length, rest) =>
    match readExact rest header_length with
    | Except.error e => ⟨some e, ev0, []⟩
    | Except.ok (_header_bytes, rest) =>
      match read_int32 rest with
      | Except.error e => ⟨some e, ev0, []⟩
      | Except.ok (file_count, rest) =>
        match buildFileList file_count rest with
        | Except.error e => ⟨some e, ev0, []⟩
        | Except.ok (file_list, rest) =>
          let r := extractAll unpacked_folder file_list (singleChunk rest)
          ⟨r.1, ev0 ++ r.2, file_list⟩

/-- One TOC entry of an archive as written on disk: raw name bytes, the 4
reserved bytes, and the payload carried for the entry. -/
structure TocSpec where
  name : List Nat
  rsv : List Nat
  payload : List Nat
deriving DecidableEq

/-- Byte encoding of one TOC record. -/
def encodeEntry (e : TocSpec) : List Nat :=
  le4 e.name.length ++ e.name ++ e.rsv ++ le4 e.payload.length

/-- Byte encoding of the whole TOC block. -/
def encodeToc (entries : List TocSpec) : List Nat :=
  (entries.map encodeEntry).flatten

/-- The header + TOC region of a well-formed archive. -/
def encodeHeaderToc (header : List Nat) (entries : List TocSpec) : List Nat :=
  le4 header.length ++ header ++ le4 entries.length ++ encodeToc entries

/-- A well-formed archive: header, TOC, then the payload regions
concatenated in TOC order with no gaps. -/
def encodeArchive (header : List Nat) (entries : List TocSpec) : List Nat :=
  encodeHeaderToc header entries ++ (entries.map TocSpec.payload).flatten

/-- Well-formedness of the numeric fields of an archive description: every
length-prefixed field fits in a `u32` and every reserved field is 4 bytes. -/
def wfSpec (header : List Nat) (entries : List TocSpec) : Prop :=
  header.length < 4294967296 ∧ entries.length < 4294967296 ∧
  ∀ e ∈ entries, e.name.length < 4294967296 ∧ e.rsv.length = 4 ∧
    e.payload.length < 4294967296

instance (header : List Nat) (entries : List TocSpec) :
    Decidable (wfSpec header entries) := by
  unfold wfSpec; infer_instance

/-- `copy_stream_data` on a stream holding at least `length` bytes. -/
theorem copy_stream_data_enough (input : List (List Nat)) (output : List Nat)
    (length : Nat) (hwf : wfStream input) (hlen : length ≤ input.flatten.length) :
    (copy_stream_data input output length).err = none ∧
    (copy_stream_data input output length).output
      = output ++ input.flatten.take length ∧
    ((copy_stream_data input output length).input).flatten
      = input.flatten.drop length ∧
    wfStream (copy_stream_data input output length).input :=
  copyLoop_enough length input output length length (Nat.le_refl _) hwf hlen

/-- `copy_stream_data` on a stream holding fewer than `length` bytes. -/
theorem copy_stream_data_deficient (input : List (List Nat)) (output : List Nat)
    (length : Nat) (hwf : wfStream input) (hlen : input.flatten.length < length) :
    copy_stream_data input output length
      = ⟨some (MpkgError.truncatedPayload length (length - input.flatten.length)),
         [], output ++ input.flatten⟩ :=
  copyLoop_deficient length input output length length (Nat.le_refl _) hwf hlen

/-- Extraction of a list of members whose payloads are all present (in
order, at the front of the stream): success, with the trace listing each
member's events in TOC order and each member receiving exactly its own
payload. -/
theorem extractAll_success (folder : List Nat) :
    ∀ (entries : List (List Nat × List Nat)) (input : List (List Nat))
      (extra : List Nat),
    wfStream input →
    input.flatten = ((entries.map Prod.snd).flatten : List Nat) ++ extra →
    extractAll folder (entries.map fun e => (e.1, e.2.length)) input
      = (none, (entries.map fun e => memberEvents folder e.1 e.2).flatten) := by
  intro entries
  induction entries with
  | nil => intro input extra hwf hfl; rfl
  | cons e tl ih =>
    intro input extra hwf hfl
    have hflat : input.flatten = e.2 ++ (((tl.map Prod.snd).flatten : List Nat) ++ extra) := by
      rw [hfl]; simp [List.append_assoc]
    have hlen : e.2.length ≤ input.flatten.length := by
      rw [hflat]; simp
    have hc := copy_stream_data_enough input [] e.2.length hwf hlen
    have hout : (copy_stream_data input [] e.2.length).output = e.2 := by
      rw [hc.2.1, List.nil_append, hflat]
      exact List.take_left e.2 _
    have hrest : ((copy_stream_data input [] e.2.length).input).flatten
        = ((tl.map Prod.snd).flatten : List Nat) ++ extra := by
      rw [hc.2.2.1, hflat]
      exact List.drop_left e.2 _
    simp only [List.map_cons, extractAll]
    rw [show (copy_stream_data input [] e.2.length).err = none from hc.1]
    simp only [List.append_eq]
    rw [ih (copy_stream_data input [] e.2.length).input extra hc.2.2.2 hrest]
    rw [hout]
    simp [List.flatten_cons]

/-- Extraction when the stream holds the payloads of `pre` in full and then
only `d < |pl|` bytes of the next member's payload: the members of `pre` are
extracted correctly, the next member's file is created with the partial
bytes, its copy fails with the truncated-payload error, and no later member
is touched. -/
theorem extractAll_truncated (folder : List Nat) :
    ∀ (pre : List (List Nat × List Nat)) (nm : List Nat) (pl : List Nat)
      (post : List (List Nat × Nat)) (input : List (List Nat)) (d : Nat),
    wfStream input → d < pl.length →
    input.flatten = ((pre.map Prod.snd).flatten : List Nat) ++ pl.take d →
    extractAll folder ((pre.map fun e => (e.1, e.2.length)) ++ (nm, pl.length) :: post) input
      = (some (MpkgError.truncatedPayload pl.length (pl.length - d)),
         (pre.map fun e => memberEvents folder e.1 e.2).flatten
           ++ memberEvents folder nm (pl.take d)) := by
  intro pre
  induction pre with
  | nil =>
    intro nm pl post input d hwf hd hfl
    simp only [List.map_nil, List.flatten_nil, List.nil_append] at hfl
    have hlen : input.flatten.length < pl.length := by
      rw [hfl, List.length_take]; omega
    have hc := copy_stream_data_deficient input [] pl.length hwf hlen
    simp only [List.map_nil, List.nil_append, extractAll, hc]
    have hrem : pl.length - input.flatten.length = pl.length - d := by
      rw [hfl, List.length_take]; omega
    rw [hfl] at hrem ⊢
    simp only [hrem, List.map_nil, List.flatten_nil, List.nil_append]
  | cons e tl ih =>
    intro nm pl post input d hwf hd hfl
    have hflat : input.flatten
        = e.2 ++ (((tl.map Prod.snd).flatten : List Nat) ++ pl.take d) := by
      rw [hfl]; simp [List.append_assoc]
    have hlen : e.2.length ≤ input.flatten.length := by
      rw [hflat]; simp
    have hc := copy_stream_data_enough input [] e.2.length hwf hlen
    have hout : (copy_stream_data input [] e.2.length).output = e.2 := by
      rw [hc.2.1, List.nil_append, hflat]
      exact List.take_left e.2 _
    have hrest : ((copy_stream_data input [] e.2.length).input).flatten
        = ((tl.map Prod.snd).flatten : List Nat) ++ pl.take d := by
      rw [hc.2.2.1, hflat]
      exact List.drop_left e.2 _
    simp only [List.map_cons, List.cons_append, extractAll]
    rw [show (copy_stream_data input [] e.2.length).err = none from hc.1]
    simp only [List.append_eq]
    rw [ih nm pl post (copy_stream_data input [] e.2.length).input d hc.2.2.2 hd hrest]
    rw [hout]
    simp [List.flatten_cons, List.append_assoc]

theorem take_append_ge (a b : List Nat) (n : Nat) (h : a.length ≤ n) :
    (a ++ b).take n = a ++ b.take (n - a.length) := by
  rw [List.take_append_eq_append_take, List.take_of_length_le h]

theorem drop4_of_len4 (a b : List Nat) (h : a.length = 4) :
    (a ++ b).drop 4 = b := by
  rw [← h]; exact List.drop_left a b

/-- Numeric well-formedness of a single TOC record. -/
def wfEntry (e : TocSpec) : Prop :=
  e.name.length < 4294967296 ∧ e.rsv.length = 4 ∧ e.payload.length < 4294967296

instance (e : TocSpec) : Decidable (wfEntry e) := by
  unfold wfEntry; infer_instance

/-- Parsing the TOC block of `entries` followed by any remainder yields the
`(lossy name, size)` list in order and leaves the remainder untouched. -/
theorem buildFileList_ok :
    ∀ (entries : List TocSpec) (rest : List Nat), (∀ e ∈ entries, wfEntry e) →
    buildFileList entries.length (encodeToc entries ++ rest)
      = Except.ok (entries.map fun e => (utf8LossyDecode e.name, e.payload.length), rest) := by
  intro entries
  induction entries with
  | nil => intro rest _; rfl
  | cons e tl ih =>
    intro rest hwf
    have he := hwf e (List.mem_cons_self e tl)
    have htl : ∀ x ∈ tl, wfEntry x := fun x hx => hwf x (List.mem_cons_of_mem e hx)
    have henc : encodeToc (e :: tl) ++ rest
        = le4 e.name.length
            ++ (e.name ++ (e.rsv ++ (le4 e.payload.length ++ (encodeToc tl ++ rest)))) := by
      simp [encodeToc, encodeEntry, List.append_assoc]
    rw [show (e :: tl).length = tl.length + 1 from rfl, henc]
    simp only [buildFileList, read_int32_le4 _ _ he.1, readExact_left,
      drop4_of_len4 _ _ he.2.1, read_int32_le4 _ _ he.2.2, ih rest htl]
    rfl

/-- Parsing a strict prefix of the TOC block fails with the
truncated-input error. -/
theorem buildFileList_truncated :
    ∀ (entries : List TocSpec) (t : Nat), (∀ e ∈ entries, wfEntry e) →
    t < (encodeToc entries).length →
    buildFileList entries.length ((encodeToc entries).take t)
      = Except.error MpkgError.truncatedInput := by
  intro entries
  induction entries with
  | nil =>
    intro t _ ht
    simp [encodeToc] at ht
  | cons e tl ih =>
    intro t hwf ht
    have he := hwf e (List.mem_cons_self e tl)
    have htl : ∀ x ∈ tl, wfEntry x := fun x hx => hwf x (List.mem_cons_of_mem e hx)
    have henc : encodeToc (e :: tl)
        = le4 e.name.length
            ++ (e.name ++ (e.rsv ++ (le4 e.payload.length ++ encodeToc tl))) := by
      simp [encodeToc, encodeEntry, List.append_assoc]
    have hlen : (encodeToc (e :: tl)).length
        = 12 + e.name.length + (encodeToc tl).length := by
      rw [henc]; simp [le4_length, he.2.1]; omega
    rw [show (e :: tl).length = tl.length + 1 from rfl, henc]
    by_cases h4 : t < 4
    · have hshort : ((le4 e.name.length
          ++ (e.name ++ (e.rsv ++ (le4 e.payload.length ++ encodeToc tl)))).take t).length < 4 := by
        simp only [List.length_take]
        omega
      simp only [buildFileList, read_int32_short _ hshort]
    · have h4' : (4 : Nat) ≤ t := by omega
      rw [take_append_ge _ _ t (by rw [le4_length]; omega)]
      rw [le4_length]
      simp only [buildFileList, read_int32_le4 _ _ he.1]
      by_cases hnm : t - 4 < e.name.length
      · have hshort : ((e.name ++ (e.rsv ++ (le4 e.payload.length ++ encodeToc tl))).take
            (t - 4)).length < e.name.length := by
          simp only [List.length_take]
          omega
        simp only [readExact_short _ _ hshort]
      · rw [take_append_ge _ _ (t - 4) (by omega)]
        simp only [readExact_left]
        by_cases hr : t - 4 - e.name.length < 8
        · have hshort : (((e.rsv ++ (le4 e.payload.length ++ encodeToc tl)).take
              (t - 4 - e.name.length)).drop 4).length < 4 := by
            simp only [List.length_drop, List.length_take, List.length_append,
              le4_length, he.2.1]
            omega
          simp only [read_int32_short _ hshort]
        · rw [take_append_ge _ _ (t - 4 - e.name.length) (by rw [he.2.1]; omega)]
          rw [he.2.1]
          rw [drop4_of_len4 _ _ he.2.1]
          rw [take_append_ge _ _ (t - 4 - e.name.length - 4) (by rw [le4_length]; omega)]
          rw [le4_length]
          simp only [read_int32_le4 _ _ he.2.2]
          have htlt : t - 4 - e.name.length - 4 - 4 < (encodeToc tl).length := by
            rw [hlen] at ht; omega
          simp only [ih (t - 4 - e.name.length - 4 - 4) htl htlt]

/-- Decoding and extracting a well-formed archive (trailing bytes after the
payload block permitted): success, the trace creates the output folder and
then, strictly in TOC order, each member's parent directories and its file
holding exactly its own payload; the index pairs each lossily decoded name
with its declared size. -/
theorem unpack_mpkg_wellFormed (input_file output_dir header : List Nat)
    (entries : List TocSpec) (extra : List Nat)
    (hh : header.length < 4294967296) (hn : entries.length < 4294967296)
    (hwf : ∀ e ∈ entries, wfEntry e) :
    unpack_mpkg input_file output_dir (encodeArchive header entries ++ extra)
      = ⟨none,
         FsEvent.mkdirAll (pathJoin output_dir (fileStem (fileNameOf input_file)))
           :: (entries.map fun e =>
                memberEvents (pathJoin output_dir (fileStem (fileNameOf input_file)))
                  (utf8LossyDecode e.name) e.payload).flatten,
         entries.map fun e => (utf8LossyDecode e.name, e.payload.length)⟩ := by
  have henc : encodeArchive header entries ++ extra
      = le4 header.length
          ++ (header ++ (le4 entries.length
            ++ (encodeToc entries ++ ((entries.map TocSpec.payload).flatten ++ extra)))) := by
    simp [encodeArchive, encodeHeaderToc, List.append_assoc]
  rw [unpack_mpkg, henc]
  simp only [read_int32_le4 _ _ hh, readExact_left, read_int32_le4 _ _ hn]
  have hb := buildFileList_ok entries ((entries.map TocSpec.payload).flatten ++ extra) hwf
  simp only [hb]
  have hx := extractAll_success
    (pathJoin output_dir (fileStem (fileNameOf input_file)))
    (entries.map fun e => (utf8LossyDecode e.name, e.payload))
    (singleChunk ((entries.map TocSpec.payload).flatten ++ extra)) extra
    (singleChunk_wf _)
    (by rw [singleChunk_flatten, List.map_map]; rfl)
  rw [List.map_map, List.map_map] at hx
  have hmap1 : ((fun e => ((e : List Nat × List Nat).1, e.2.length))
        ∘ fun e => (utf8LossyDecode (TocSpec.name e), TocSpec.payload e))
      = fun e => (utf8LossyDecode (TocSpec.name e), (TocSpec.payload e).length) := rfl
  rw [hmap1] at hx
  simp only [hx]
  rfl

/-- Decoding an archive whose payload block stops `d` bytes into the
payload of the member after `pre` (with `d` short of that payload's length):
the members of `pre` are extracted in full, the failing member's file is
created with the `d` available bytes, the run stops with the
truncated-payload error, and no later member is touched. -/
theorem unpack_mpkg_truncatedPayload (input_file output_dir header : List Nat)
    (pre : List TocSpec) (mid : TocSpec) (post : List TocSpec) (d : Nat)
    (hh : header.length < 4294967296)
    (hn : (pre ++ mid :: post).length < 4294967296)
    (hwf : ∀ e ∈ pre ++ mid :: post, wfEntry e)
    (hd : d < mid.payload.length) :
    unpack_mpkg input_file output_dir
      (encodeHeaderToc header (pre ++ mid :: post)
        ++ ((pre.map TocSpec.payload).flatten ++ mid.payload.take d))
      = ⟨some (MpkgError.truncatedPayload mid.payload.length (mid.payload.length - d)),
         FsEvent.mkdirAll (pathJoin output_dir (fileStem (fileNameOf input_file)))
           :: ((pre.map fun e =>
                 memberEvents (pathJoin output_dir (fileStem (fileNameOf input_file)))
                   (utf8LossyDecode e.name) e.payload).flatten
               ++ memberEvents (pathJoin output_dir (fileStem (fileNameOf input_file)))
                   (utf8LossyDecode mid.name) (mid.payload.take d)),
         (pre ++ mid :: post).map fun e => (utf8LossyDecode e.name, e.payload.length)⟩ := by
  have henc : encodeHeaderToc header (pre ++ mid :: post)
        ++ ((pre.map TocSpec.payload).flatten ++ mid.payload.take d)
      = le4 header.length
          ++ (header ++ (le4 (pre ++ mid :: post).length
            ++ (encodeToc (pre ++ mid :: post)
              ++ ((pre.map TocSpec.payload).flatten ++ mid.payload.take d)))) := by
    simp [encodeHeaderToc, List.append_assoc]
  rw [unpack_mpkg, henc]
  simp only [read_int32_le4 _ _ hh, readExact_left, read_int32_le4 _ _ hn]
  have hb := buildFileList_ok (pre ++ mid :: post)
    ((pre.map TocSpec.payload).flatten ++ mid.payload.take d) hwf
  simp only [hb]
  have hx := extractAll_truncated
    (pathJoin output_dir (fileStem (fileNameOf input_file)))
    (pre.map fun e => (utf8LossyDecode e.name, e.payload))
    (utf8LossyDecode mid.name) mid.payload
    (post.map fun e => (utf8LossyDecode e.name, e.payload.length))
    (singleChunk ((pre.map TocSpec.payload).flatten ++ mid.payload.take d)) d
    (singleChunk_wf _) hd
    (by rw [singleChunk_flatten, List.map_map]; rfl)
  rw [List.map_map, List.map_map] at hx
  have hmap1 : ((fun e => ((e : List Nat × List Nat).1, e.2.length))
        ∘ fun e => (utf8LossyDecode (TocSpec.name e), TocSpec.payload e))
      = fun e => (utf8LossyDecode (TocSpec.name e), (TocSpec.payload e).length) := rfl
  rw [hmap1] at hx
  have hfl : ((pre ++ mid :: post).map fun e => (utf8LossyDecode e.name, e.payload.length))
      = (pre.map fun e => (utf8LossyDecode (TocSpec.name e), (TocSpec.payload e).length))
        ++ (utf8LossyDecode mid.name, mid.payload.length)
          :: (post.map fun e => (utf8LossyDecode e.name, e.payload.length)) := by
    simp
  rw [hfl]
  simp only [hx]
  rfl

/-- Decoding an archive cut anywhere inside the header or TOC region: the
whole run fails with the truncated-input error, the only filesystem effect
is creation of the archive's output folder, and no index is produced. -/
theorem unpack_mpkg_truncatedHeaderToc (input_file output_dir header : List Nat)
    (entries : List TocSpec) (t : Nat)
    (hh : header.length < 4294967296) (hn : entries.length < 4294967296)
    (hwf : ∀ e ∈ entries, wfEntry e)
    (ht : t < (encodeHeaderToc header entries).length) :
    unpack_mpkg input_file output_dir ((encodeHeaderToc header entries).take t)
      = ⟨some MpkgError.truncatedInput,
         [FsEvent.mkdirAll (pathJoin output_dir (fileStem (fileNameOf input_file)))],
         []⟩ := by
  have henc : encodeHeaderToc header entries
      = le4 header.length
          ++ (header ++ (le4 entries.length ++ encodeToc entries)) := by
    simp [encodeHeaderToc, List.append_assoc]
  have hlen : (encodeHeaderToc header entries).length
      = 8 + header.length + (encodeToc entries).length := by
    rw [henc]; simp [le4_length]; omega
  rw [hlen] at ht
  rw [henc]
  rw [unpack_mpkg]
  by_cases h4 : t < 4
  · have hshort : ((le4 header.length
        ++ (header ++ (le4 entries.length ++ encodeToc entries))).take t).length < 4 := by
      simp only [List.length_take, List.length_append, le4_length]
      omega
    simp only [read_int32_short _ hshort]
  · rw [take_append_ge _ _ t (by rw [le4_length]; omega)]
    rw [le4_length]
    simp only [read_int32_le4 _ _ hh]
    by_cases hhd : t - 4 < header.length
    · have hshort : ((header ++ (le4 entries.length ++ encodeToc entries)).take
          (t - 4)).length < header.length := by
        simp only [List.length_take]
        omega
      simp only [readExact_short _ _ hshort]
    · rw [take_append_ge _ _ (t - 4) (by omega)]
      simp only [readExact_left]
      by_cases hcnt : t - 4 - header.length < 4
      · have hshort : (((le4 entries.length ++ encodeToc entries)).take
            (t - 4 - header.length)).length < 4 := by
          simp only [List.length_take, List.length_append, le4_length]
          omega
        simp only [read_int32_short _ hshort]
      · rw [take_append_ge _ _ (t - 4 - header.length) (by rw [le4_length]; omega)]
        rw [le4_length]
        simp only [read_int32_le4 _ _ hn]
        have htoc : t - 4 - header.length - 4 < (encodeToc entries).length := by omega
        simp only [buildFileList_truncated entries (t - 4 - header.length - 4) hwf htoc]

/-- C1: for every length (including 0) and every well-behaved input stream
supplying at least `length` bytes, `copy_stream_data` succeeds, appends to
the output exactly the first `length` bytes of the input in order, and
consumes exactly `length` bytes from the input cursor. -/
theorem claim1_copy_bounded_exact (length : Nat) (input : List (List Nat))
    (output : List Nat) (hwf : wfStream input)
    (hlen : length ≤ input.flatten.length) :
    (copy_stream_data input output length).err = none ∧
    (copy_stream_data input output length).output
      = output ++ input.flatten.take length ∧
    ((copy_stream_data input output length).input).flatten
      = input.flatten.drop length := by
  have h := copy_stream_data_enough input output length hwf hlen
  exact ⟨h.1, h.2.1, h.2.2.1⟩

theorem claim1_witness :
    (copy_stream_data [[1, 2], [3]] [9] 2).err = none ∧
    (copy_stream_data [[1, 2], [3]] [9] 2).output
      = [9] ++ ([[1, 2], [3]] : List (List Nat)).flatten.take 2 ∧
    ((copy_stream_data [[1, 2], [3]] [9] 2).input).flatten
      = ([[1, 2], [3]] : List (List Nat)).flatten.drop 2 :=
  claim1_copy_bounded_exact 2 [[1, 2], [3]] [9] (by decide) (by decide)

/-- C2: for every length and every well-behaved input stream,
`copy_stream_data` fails exactly when the stream yields fewer than `length`
total bytes, and then the error is `TruncatedPayload` whose expected field
is `length` and whose remaining field is `length` minus the bytes actually
transferred (all available bytes are transferred before the failure). -/
theorem claim2_copy_bounded_truncation (length : Nat) (input : List (List Nat))
    (output : List Nat) (hwf : wfStream input) :
    (copy_stream_data input output length).err
      = (if input.flatten.length < length
         then some (MpkgError.truncatedPayload length (length - input.flatten.length))
         else none) ∧
    (input.flatten.length < length →
      (copy_stream_data input output length).output = output ++ input.flatten) := by
  by_cases h : input.flatten.length < length
  · have hd := copy_stream_data_deficient input output length hwf h
    rw [if_pos h, hd]
    exact ⟨rfl, fun _ => rfl⟩
  · rw [if_neg h]
    refine ⟨(copy_stream_data_enough input output length hwf (by omega)).1, ?_⟩
    intro hcon; omega

theorem claim2_witness :
    (copy_stream_data [[1, 2]] [] 5).err
      = (if ([[1, 2]] : List (List Nat)).flatten.length < 5
         then some (MpkgError.truncatedPayload 5 (5 - ([[1, 2]] : List (List Nat)).flatten.length))
         else none) ∧
    (([[1, 2]] : List (List Nat)).flatten.length < 5 →
      (copy_stream_data [[1, 2]] [] 5).output = [] ++ ([[1, 2]] : List (List Nat)).flatten) :=
  claim2_copy_bounded_truncation 5 [[1, 2]] [] (by decide)

/-- C9: `read_int32` of the 4-byte little-endian encoding of any `u32`
value yields that value back; it consumes and interprets exactly the next 4
bytes in little-endian order (so re-encoding those 4 bytes reproduces them);
it fails with the truncated-input error when fewer than 4 bytes remain. -/
theorem claim9_read_int32_le_roundtrip :
    (∀ (v : Nat) (rest : List Nat), v < 4294967296 →
      read_int32 (le4 v ++ rest) = Except.ok (v, rest)) ∧
    (∀ (b0 b1 b2 b3 : Nat) (rest : List Nat),
      read_int32 (b0 :: b1 :: b2 :: b3 :: rest) = Except.ok (fromLe4 b0 b1 b2 b3, rest)) ∧
    (∀ (b0 b1 b2 b3 : Nat), b0 < 256 → b1 < 256 → b2 < 256 → b3 < 256 →
      le4 (fromLe4 b0 b1 b2 b3) = [b0, b1, b2, b3]) ∧
    (∀ input : List Nat, input.length < 4 →
      read_int32 input = Except.error MpkgError.truncatedInput) := by
  refine ⟨fun v rest hv => read_int32_le4 v rest hv, fun _ _ _ _ _ => rfl, ?_,
    fun input h => read_int32_short input h⟩
  intro b0 b1 b2 b3 h0 h1 h2 h3
  simp only [le4, fromLe4, List.cons.injEq, and_true]
  refine ⟨by omega, by omega, by omega, by omega⟩

theorem claim9_witness :
    read_int32 (le4 305419896 ++ [7]) = Except.ok (305419896, [7]) ∧
    le4 (fromLe4 120 86 52 18) = [120, 86, 52, 18] ∧
    read_int32 [1, 2, 3] = Except.error MpkgError.truncatedInput :=
  ⟨claim9_read_int32_le_roundtrip.1 305419896 [7] (by decide),
   claim9_read_int32_le_roundtrip.2.2.1 120 86 52 18
     (by decide) (by decide) (by decide) (by decide),
   claim9_read_int32_le_roundtrip.2.2.2 [1, 2, 3] (by decide)⟩

/-- C10: each iteration of the `copy_stream_data` loop with a positive
remaining count either hits a zero-byte read and returns the
truncated-payload error, or transfers at least one byte and continues with a
strictly smaller remaining count, so the loop is well founded on the
remaining byte count. -/
theorem claim10_copy_loop_decreases (input : List (List Nat)) (output : List Nat)
    (length remaining fuel : Nat) (h : 0 < remaining) :
    ((streamRead input (min BUFFER_SIZE remaining)).1.length = 0 ∧
      copyLoop (fuel + 1) input output length remaining
        = ⟨some (MpkgError.truncatedPayload length remaining),
           (streamRead input (min BUFFER_SIZE remaining)).2, output⟩) ∨
    (0 < (streamRead input (min BUFFER_SIZE remaining)).1.length ∧
      remaining - (streamRead input (min BUFFER_SIZE remaining)).1.length < remaining ∧
      copyLoop (fuel + 1) input output length remaining
        = copyLoop fuel (streamRead input (min BUFFER_SIZE remaining)).2
            (output ++ (streamRead input (min BUFFER_SIZE remaining)).1) length
            (remaining - (streamRead input (min BUFFER_SIZE remaining)).1.length)) := by
  by_cases hz : (streamRead input (min BUFFER_SIZE remaining)).1.length = 0
  · left
    refine ⟨hz, ?_⟩
    simp only [copyLoop, if_neg (by omega : ¬remaining = 0), if_pos hz]
  · right
    refine ⟨by omega, by omega, ?_⟩
    simp only [copyLoop, if_neg (by omega : ¬remaining = 0), if_neg hz]

theorem claim10_witness :
    ((streamRead [[5]] (min BUFFER_SIZE 3)).1.length = 0 ∧
      copyLoop 4 [[5]] [] 3 3
        = ⟨some (MpkgError.truncatedPayload 3 3), (streamRead [[5]] (min BUFFER_SIZE 3)).2, []⟩) ∨
    (0 < (streamRead [[5]] (min BUFFER_SIZE 3)).1.length ∧
      3 - (streamRead [[5]] (min BUFFER_SIZE 3)).1.length < 3 ∧
      copyLoop 4 [[5]] [] 3 3
        = copyLoop 3 (streamRead [[5]] (min BUFFER_SIZE 3)).2
            ([] ++ (streamRead [[5]] (min BUFFER_SIZE 3)).1) 3
            (3 - (streamRead [[5]] (min BUFFER_SIZE 3)).1.length)) :=
  claim10_copy_loop_decreases [[5]] [] 3 3 3 (by decide)

/-- The region of the concatenated payload block belonging to index `i`:
after dropping the payloads of indices below `i`, the next `|l[i]|` bytes
are exactly `l[i]` (payload positions are cumulative). -/
theorem flatten_segment (l : List (List Nat)) (i : Nat) (hi : i < l.length) :
    ((l.flatten.drop ((l.take i).flatten.length)).take (l.get ⟨i, hi⟩).length)
      = l.get ⟨i, hi⟩ := by
  have h1 : l.flatten = (l.take i).flatten ++ (l.drop i).flatten := by
    rw [← List.flatten_append, List.take_append_drop]
  rw [h1, List.drop_left]
  have h2 : l.drop i = l.get ⟨i, hi⟩ :: l.drop (i + 1) := by
    rw [List.drop_eq_getElem_cons hi]
    rfl
  rw [h2, List.flatten_cons]
  exact List.take_left _ _

/-- C3: a well-formed archive is extracted strictly in TOC order — the
trace is the output folder creation followed by each member's events in TOC
position, the i-th member's file holding exactly its own payload — and each
member's payload region is the one starting immediately after the payloads
of the earlier members (cumulative implicit offsets, no gaps). -/
theorem claim3_extraction_in_toc_order (input_file output_dir header : List Nat)
    (entries : List TocSpec)
    (hh : header.length < 4294967296) (hn : entries.length < 4294967296)
    (hwf : ∀ e ∈ entries, wfEntry e) :
    unpack_mpkg input_file output_dir (encodeArchive header entries)
      = ⟨none,
         FsEvent.mkdirAll (pathJoin output_dir (fileStem (fileNameOf input_file)))
           :: (entries.map fun e =>
                memberEvents (pathJoin output_dir (fileStem (fileNameOf input_file)))
                  (utf8LossyDecode e.name) e.payload).flatten,
         entries.map fun e => (utf8LossyDecode e.name, e.payload.length)⟩
    ∧ ∀ (i : Nat) (hi : i < entries.length),
        ((((entries.map TocSpec.payload).flatten).drop
            (((entries.take i).map TocSpec.payload).flatten.length)).take
            (entries.get ⟨i, hi⟩).payload.length)
          = (entries.get ⟨i, hi⟩).payload := by
  constructor
  · have h := unpack_mpkg_wellFormed input_file output_dir header entries [] hh hn hwf
    rwa [List.append_nil] at h
  · intro i hi
    have hi' : i < (entries.map TocSpec.payload).length := by simpa using hi
    have h := flatten_segment (entries.map TocSpec.payload) i hi'
    simp only [List.get_eq_getElem, List.getElem_map, List.map_take] at h ⊢
    exact h

theorem claim3_witness :
    unpack_mpkg [97, 46, 109, 112, 107, 103] [111]
        (encodeArchive [118, 49]
          [⟨[98], [0, 0, 0, 0], [104, 105]⟩, ⟨[99], [1, 2, 3, 4], [106]⟩])
      = ⟨none,
         FsEvent.mkdirAll (pathJoin [111] (fileStem (fileNameOf [97, 46, 109, 112, 107, 103])))
           :: (([⟨[98], [0, 0, 0, 0], [104, 105]⟩,
                 ⟨[99], [1, 2, 3, 4], [106]⟩] : List TocSpec).map fun e =>
                memberEvents (pathJoin [111] (fileStem (fileNameOf [97, 46, 109, 112, 107, 103])))
                  (utf8LossyDecode e.name) e.payload).flatten,
         ([⟨[98], [0, 0, 0, 0], [104, 105]⟩,
           ⟨[99], [1, 2, 3, 4], [106]⟩] : List TocSpec).map
             fun e => (utf8LossyDecode e.name, e.payload.length)⟩
    ∧ (((([⟨[98], [0, 0, 0, 0], [104, 105]⟩,
           ⟨[99], [1, 2, 3, 4], [106]⟩] : List TocSpec).map TocSpec.payload).flatten).drop
          (((([⟨[98], [0, 0, 0, 0], [104, 105]⟩,
              ⟨[99], [1, 2, 3, 4], [106]⟩] : List TocSpec).take 1).map TocSpec.payload).flatten.length)).take
          (([⟨[98], [0, 0, 0, 0], [104, 105]⟩,
            ⟨[99], [1, 2, 3, 4], [106]⟩] : List TocSpec).get ⟨1, by decide⟩).payload.length
        = (([⟨[98], [0, 0, 0, 0], [104, 105]⟩,
            ⟨[99], [1, 2, 3, 4], [106]⟩] : List TocSpec).get ⟨1, by decide⟩).payload := by
  have h := claim3_extraction_in_toc_order [97, 46, 109, 112, 107, 103] [111] [118, 49]
    [⟨[98], [0, 0, 0, 0], [104, 105]⟩, ⟨[99], [1, 2, 3, 4], [106]⟩]
    (by decide) (by decide) (by decide)
  exact ⟨h.1, h.2 1 (by decide)⟩

/-- C8: an archive declaring zero members (whatever follows the count)
decodes to the empty index, creates exactly the archive's root output
folder and nothing else, and succeeds. -/
theorem claim8_zero_members (input_file output_dir header extra : List Nat)
    (hh : header.length < 4294967296) :
    unpack_mpkg input_file output_dir (le4 header.length ++ header ++ le4 0 ++ extra)
      = ⟨none,
         [FsEvent.mkdirAll (pathJoin output_dir (fileStem (fileNameOf input_file)))],
         []⟩ := by
  have h := unpack_mpkg_wellFormed input_file output_dir header [] extra hh
    (by decide) (by intro e he; cases he)
  have harr : encodeArchive header [] ++ extra
      = le4 header.length ++ header ++ le4 0 ++ extra := by
    simp [encodeArchive, encodeHeaderToc, encodeToc, List.append_assoc]
  rw [harr] at h
  simpa using h

theorem claim8_witness :
    unpack_mpkg [97, 46, 109] [111] (le4 2 ++ [118, 49] ++ le4 0 ++ [7, 7])
      = ⟨none, [FsEvent.mkdirAll (pathJoin [111] (fileStem (fileNameOf [97, 46, 109])))], []⟩ := by
  have h := claim8_zero_members [97, 46, 109] [111] [118, 49] [7, 7] (by decide)
  exact h

/-- C7: an archive whose bytes end anywhere inside the header or TOC phase
fails entirely with the truncated-input error before any member file is
created; the only filesystem effect is the output folder, and the partial
index is discarded, never extracted. -/
theorem claim7_header_toc_truncation (input_file output_dir header : List Nat)
    (entries : List TocSpec) (t : Nat)
    (hh : header.length < 4294967296) (hn : entries.length < 4294967296)
    (hwf : ∀ e ∈ entries, wfEntry e)
    (ht : t < (encodeHeaderToc header entries).length) :
    unpack_mpkg input_file output_dir ((encodeHeaderToc header entries).take t)
      = ⟨some MpkgError.truncatedInput,
         [FsEvent.mkdirAll (pathJoin output_dir (fileStem (fileNameOf input_file)))],
         []⟩
    ∧ ∀ p c, FsEvent.createFile p c
        ∉ (unpack_mpkg input_file output_dir ((encodeHeaderToc header entries).take t)).events := by
  have h := unpack_mpkg_truncatedHeaderToc input_file output_dir header entries t hh hn hwf ht
  refine ⟨h, ?_⟩
  rw [h]
  intro p c hmem
  simp at hmem

theorem claim7_witness :
    unpack_mpkg [97, 46, 109] [111]
        ((encodeHeaderToc [118, 49] [⟨[98], [0, 0, 0, 0], [104, 105]⟩]).take 14)
      = ⟨some MpkgError.truncatedInput,
         [FsEvent.mkdirAll (pathJoin [111] (fileStem (fileNameOf [97, 46, 109])))],
         []⟩
    ∧ ∀ p c, FsEvent.createFile p c
        ∉ (unpack_mpkg [97, 46, 109] [111]
            ((encodeHeaderToc [118, 49] [⟨[98], [0, 0, 0, 0], [104, 105]⟩]).take 14)).events :=
  claim7_header_toc_truncation [97, 46, 109] [111] [118, 49]
    [⟨[98], [0, 0, 0, 0], [104, 105]⟩] 14 (by decide) (by decide) (by decide) (by decide)

/-- C6: when the payload region is cut `d` bytes into some member's payload
(in particular when a well-formed archive is shortened by one byte from the
end), extraction fails on exactly that member with the truncated-payload
error; every earlier member is on disk with its correct full contents, the
failing member's file holds the bytes that were available, and no member
after the failing one is ever touched. -/
theorem claim6_payload_truncation_aborts (input_file output_dir header : List Nat)
    (pre : List TocSpec) (mid : TocSpec) (post : List TocSpec) (d : Nat)
    (hh : header.length < 4294967296)
    (hn : (pre ++ mid :: post).length < 4294967296)
    (hwf : ∀ e ∈ pre ++ mid :: post, wfEntry e)
    (hd : d < mid.payload.length) :
    unpack_mpkg input_file output_dir
        (encodeHeaderToc header (pre ++ mid :: post)
          ++ ((pre.map TocSpec.payload).flatten ++ mid.payload.take d))
      = ⟨some (MpkgError.truncatedPayload mid.payload.length (mid.payload.length - d)),
         FsEvent.mkdirAll (pathJoin output_dir (fileStem (fileNameOf input_file)))
           :: ((pre.map fun e =>
                 memberEvents (pathJoin output_dir (fileStem (fileNameOf input_file)))
                   (utf8LossyDecode e.name) e.payload).flatten
               ++ memberEvents (pathJoin output_dir (fileStem (fileNameOf input_file)))
                   (utf8LossyDecode mid.name) (mid.payload.take d)),
         (pre ++ mid :: post).map fun e => (utf8LossyDecode e.name, e.payload.length)⟩ :=
  unpack_mpkg_truncatedPayload input_file output_dir header pre mid post d hh hn hwf hd

theorem claim6_witness :
    unpack_mpkg [97, 46, 109] [111]
        (encodeHeaderToc [118, 49]
            ([⟨[98], [0, 0, 0, 0], [106]⟩] ++ ⟨[99], [0, 0, 0, 0], [104, 105]⟩ :: [])
          ++ ((([⟨[98], [0, 0, 0, 0], [106]⟩] : List TocSpec).map TocSpec.payload).flatten
              ++ [104, 105].take 1))
      = ⟨some (MpkgError.truncatedPayload 2 1),
         FsEvent.mkdirAll (pathJoin [111] (fileStem (fileNameOf [97, 46, 109])))
           :: ((([⟨[98], [0, 0, 0, 0], [106]⟩] : List TocSpec).map fun e =>
                 memberEvents (pathJoin [111] (fileStem (fileNameOf [97, 46, 109])))
                   (utf8LossyDecode e.name) e.payload).flatten
               ++ memberEvents (pathJoin [111] (fileStem (fileNameOf [97, 46, 109])))
                   (utf8LossyDecode [99]) ([104, 105].take 1)),
         (([⟨[98], [0, 0, 0, 0], [106]⟩] ++ ⟨[99], [0, 0, 0, 0], [104, 105]⟩ :: []) : List TocSpec).map
           fun e => (utf8LossyDecode e.name, e.payload.length)⟩ := by
  have h := claim6_payload_truncation_aborts [97, 46, 109] [111] [118, 49]
    [⟨[98], [0, 0, 0, 0], [106]⟩] ⟨[99], [0, 0, 0, 0], [104, 105]⟩ [] 1
    (by decide) (by decide) (by decide) (by decide)
  exact h

theorem pathJoin_relative (base child : List Nat) (hc : child.head? ≠ some 47)
    (hb : base ≠ []) (hl : base.getLast? ≠ some 47) :
    pathJoin base child = base ++ 47 :: child := by
  unfold pathJoin
  rw [if_neg hc, if_neg hb, if_neg hl]

theorem pathParent_some (base child : List Nat) (hb : base ≠ [])
    (hl : base.getLast? ≠ some 47) :
    ∃ par, pathParent (base ++ 47 :: child) = some par := by
  cases hp : pathParent (base ++ 47 :: child) with
  | some par => exact ⟨par, rfl⟩
  | none =>
    exfalso
    simp only [pathParent] at hp
    by_cases hq : (base ++ 47 :: child).reverse.dropWhile (· = 47) = []
    · rw [List.dropWhile_eq_nil_iff] at hq
      have hx : base.getLast? = some (base.getLast hb) := List.getLast?_eq_getLast base hb
      have hne : base.getLast hb ≠ 47 := by
        intro hcon; rw [hx, hcon] at hl; exact hl rfl
      have hmem : base.getLast hb ∈ (base ++ 47 :: child).reverse := by
        rw [List.mem_reverse]
        exact List.mem_append_left _ (List.getLast_mem hb)
      have := hq _ hmem
      simp at this
      exact hne this
    · rw [if_neg hq] at hp
      split at hp <;> (try split at hp) <;> simp_all

theorem memberEvents_eq_of_parent (folder name contents par : List Nat)
    (hpar : pathParent (pathJoin folder (utf8Encode name)) = some par) :
    memberEvents folder name contents
      = [FsEvent.mkdirAll par,
         FsEvent.createFile (pathJoin folder (utf8Encode name)) contents] := by
  simp only [memberEvents]
  rw [hpar]
  rfl

theorem createFile_mem_memberEvents (folder name contents : List Nat) :
    FsEvent.createFile (pathJoin folder (utf8Encode name)) contents
      ∈ memberEvents folder name contents := by
  unfold memberEvents
  apply List.mem_append_right
  simp

/-- C4 counterexample: an archive whose single member is named `/e` (bytes
`[47, 101]`).  The code joins the name onto the output folder with
`Path::join`, and an absolute name replaces the base entirely, so the file
is created at `/e`, not at `output_root/archive_stem//e`, and not under the
archive's output subdirectory. -/
theorem claim4_counterexample :
    (unpack_mpkg [97, 46, 109] [111]
        (encodeArchive [] [⟨[47, 101], [0, 0, 0, 0], [104]⟩])).err = none ∧
    (unpack_mpkg [97, 46, 109] [111]
        (encodeArchive [] [⟨[47, 101], [0, 0, 0, 0], [104]⟩])).events
      = [FsEvent.mkdirAll [111, 47, 97], FsEvent.mkdirAll [47],
         FsEvent.createFile [47, 101] [104]] ∧
    FsEvent.createFile ([111, 47, 97] ++ 47 :: [47, 101]) [104]
      ∉ (unpack_mpkg [97, 46, 109] [111]
          (encodeArchive [] [⟨[47, 101], [0, 0, 0, 0], [104]⟩])).events ∧
    ([47, 101] : List Nat) ≠ [111, 47, 97] ++ 47 :: [47, 101] := by
  decide

/-- C4 (amended): every successfully extracted member is materialized at
`Path::join(output_root/archive_stem, name)` with its parent directory
chain created first; whenever the (re-encoded lossily decoded) name does
not begin with a path separator — and the output folder is non-empty with
no trailing separator — that path is exactly
`output_root/archive_stem/name`, a location under the archive's output
subdirectory; an absolute member name escapes it. -/
theorem claim4_join_and_parents (input_file output_dir header : List Nat)
    (entries : List TocSpec)
    (hh : header.length < 4294967296) (hn : entries.length < 4294967296)
    (hwf : ∀ e ∈ entries, wfEntry e) (e : TocSpec) (he : e ∈ entries)
    (hrel : (utf8Encode (utf8LossyDecode e.name)).head? ≠ some 47)
    (hnf : pathJoin output_dir (fileStem (fileNameOf input_file)) ≠ [])
    (hnl : (pathJoin output_dir (fileStem (fileNameOf input_file))).getLast? ≠ some 47) :
    ∃ par,
      pathJoin (pathJoin output_dir (fileStem (fileNameOf input_file)))
          (utf8Encode (utf8LossyDecode e.name))
        = pathJoin output_dir (fileStem (fileNameOf input_file))
            ++ 47 :: utf8Encode (utf8LossyDecode e.name) ∧
      pathParent (pathJoin output_dir (fileStem (fileNameOf input_file))
          ++ 47 :: utf8Encode (utf8LossyDecode e.name)) = some par ∧
      FsEvent.mkdirAll par
        ∈ (unpack_mpkg input_file output_dir (encodeArchive header entries)).events ∧
      FsEvent.createFile
          (pathJoin output_dir (fileStem (fileNameOf input_file))
            ++ 47 :: utf8Encode (utf8LossyDecode e.name)) e.payload
        ∈ (unpack_mpkg input_file output_dir (encodeArchive header entries)).events := by
  have hpj : pathJoin (pathJoin output_dir (fileStem (fileNameOf input_file)))
        (utf8Encode (utf8LossyDecode e.name))
      = pathJoin output_dir (fileStem (fileNameOf input_file))
          ++ 47 :: utf8Encode (utf8LossyDecode e.name) :=
    pathJoin_relative _ _ hrel hnf hnl
  obtain ⟨par, hpar⟩ := pathParent_some (pathJoin output_dir (fileStem (fileNameOf input_file)))
    (utf8Encode (utf8LossyDecode e.name)) hnf hnl
  have hme : memberEvents (pathJoin output_dir (fileStem (fileNameOf input_file)))
        (utf8LossyDecode e.name) e.payload
      = [FsEvent.mkdirAll par,
         FsEvent.createFile (pathJoin output_dir (fileStem (fileNameOf input_file))
           ++ 47 :: utf8Encode (utf8LossyDecode e.name)) e.payload] := by
    have h2 := memberEvents_eq_of_parent
      (pathJoin output_dir (fileStem (fileNameOf input_file)))
      (utf8LossyDecode e.name) e.payload par (by rw [hpj]; exact hpar)
    rw [hpj] at h2
    exact h2
  have htr := unpack_mpkg_wellFormed input_file output_dir header entries [] hh hn hwf
  rw [List.append_nil] at htr
  refine ⟨par, hpj, hpar, ?_, ?_⟩
  · rw [htr]
    apply List.mem_cons_of_mem
    refine List.mem_flatten.mpr ⟨_, List.mem_map_of_mem _ he, ?_⟩
    rw [hme]; simp
  · rw [htr]
    apply List.mem_cons_of_mem
    refine List.mem_flatten.mpr ⟨_, List.mem_map_of_mem _ he, ?_⟩
    rw [hme]; simp

theorem claim4_witness :
    ∃ par,
      pathJoin (pathJoin [111] (fileStem (fileNameOf [97, 46, 109])))
          (utf8Encode (utf8LossyDecode [98, 47, 99]))
        = pathJoin [111] (fileStem (fileNameOf [97, 46, 109]))
            ++ 47 :: utf8Encode (utf8LossyDecode [98, 47, 99]) ∧
      pathParent (pathJoin [111] (fileStem (fileNameOf [97, 46, 109]))
          ++ 47 :: utf8Encode (utf8LossyDecode [98, 47, 99])) = some par ∧
      FsEvent.mkdirAll par
        ∈ (unpack_mpkg [97, 46, 109] [111]
            (encodeArchive [118] [⟨[98, 47, 99], [0, 0, 0, 0], [104]⟩])).events ∧
      FsEvent.createFile
          (pathJoin [111] (fileStem (fileNameOf [97, 46, 109]))
            ++ 47 :: utf8Encode (utf8LossyDecode [98, 47, 99])) [104]
        ∈ (unpack_mpkg [97, 46, 109] [111]
            (encodeArchive [118] [⟨[98, 47, 99], [0, 0, 0, 0], [104]⟩])).events :=
  claim4_join_and_parents [97, 46, 109] [111] [118]
    [⟨[98, 47, 99], [0, 0, 0, 0], [104]⟩]
    (by decide) (by decide) (by decide)
    ⟨[98, 47, 99], [0, 0, 0, 0], [104]⟩ (by decide)
    (by decide) (by decide) (by decide)

/-- C5 counterexample: an archive whose single member name is the invalid
UTF-8 byte `0xFF`.  The code lossily decodes the name and uses the decoded
string to build the destination path, so the file is created at the UTF-8
encoding of U+FFFD (`EF BF BD`) under the output folder, not at the raw
byte `0xFF`. -/
theorem claim5_counterexample :
    (unpack_mpkg [97, 46, 109] [111]
        (encodeArchive [] [⟨[255], [0, 0, 0, 0], [104]⟩])).events
      = [FsEvent.mkdirAll [111, 47, 97], FsEvent.mkdirAll [111, 47, 97],
         FsEvent.createFile [111, 47, 97, 47, 239, 191, 189] [104]] ∧
    FsEvent.createFile ([111, 47, 97] ++ 47 :: [255]) [104]
      ∉ (unpack_mpkg [97, 46, 109] [111]
          (encodeArchive [] [⟨[255], [0, 0, 0, 0], [104]⟩])).events ∧
    utf8Encode (utf8LossyDecode [255]) ≠ [255] := by
  decide

/-- C5 (amended): sizes and length prefixes are taken from the raw fields,
but the destination path of every member is built from the lossily decoded
name — its path component is the UTF-8 re-encoding of the lossy decoding of
the raw name bytes, which coincides with the raw bytes exactly when they
are valid (here: ASCII) and substitutes U+FFFD otherwise. -/
theorem claim5_lossy_name_in_path (input_file output_dir header : List Nat)
    (entries : List TocSpec)
    (hh : header.length < 4294967296) (hn : entries.length < 4294967296)
    (hwf : ∀ e ∈ entries, wfEntry e) (e : TocSpec) (he : e ∈ entries) :
    FsEvent.createFile
        (pathJoin (pathJoin output_dir (fileStem (fileNameOf input_file)))
          (utf8Encode (utf8LossyDecode e.name))) e.payload
      ∈ (unpack_mpkg input_file output_dir (encodeArchive header entries)).events
    ∧ ((∀ b ∈ e.name, b ≤ 127) → utf8Encode (utf8LossyDecode e.name) = e.name) := by
  constructor
  · have htr := unpack_mpkg_wellFormed input_file output_dir header entries [] hh hn hwf
    rw [List.append_nil] at htr
    rw [htr]
    apply List.mem_cons_of_mem
    refine List.mem_flatten.mpr ⟨_, List.mem_map_of_mem _ he, ?_⟩
    exact createFile_mem_memberEvents _ _ _
  · exact fun h => utf8_roundtrip_ascii e.name h

theorem claim5_witness :
    FsEvent.createFile
        (pathJoin (pathJoin [111] (fileStem (fileNameOf [97, 46, 109])))
          (utf8Encode (utf8LossyDecode [98]))) [104, 105]
      ∈ (unpack_mpkg [97, 46, 109] [111]
          (encodeArchive [118] [⟨[98], [0, 0, 0, 0], [104, 105]⟩])).events
    ∧ ((∀ b ∈ ([98] : List Nat), b ≤ 127) → utf8Encode (utf8LossyDecode [98]) = [98]) :=
  claim5_lossy_name_in_path [97, 46, 109] [111] [118]
    [⟨[98], [0, 0, 0, 0], [104, 105]⟩]
    (by decide) (by decide) (by decide)
    ⟨[98], [0, 0, 0, 0], [104, 105]⟩ (by decide)
